import Mathlib

/-!
Verification development for the company-research-agent pipeline.

The definitions below are a shallow embedding of the Python sources:
  * backend/nodes/curator.py       (document scoring, filtering, dedup, ranking)
  * backend/utils/references.py    (cross-category reference selection)
  * backend/graph.py               (stage graph, progress computation, raw compiler)
  * application.py                 (job admission semaphore, job outcome)

Scores are modelled as rationals; Python dicts (which preserve insertion
order) are modelled as association lists; Python exceptions are modelled
with `Option`/explicit failure parameters.
-/

namespace CompanyResearch

/-- A raw collected document, as consumed by `Curator.evaluate_documents`
(backend/nodes/curator.py).  The collector's raw relevance signal is the
`score` field; `source = "company_website"` marks first-party pages. -/
structure RawDoc where
  url : String
  title : String
  content : String
  source : String
  score : ℚ
  deriving DecidableEq

/-- `self.relevance_threshold = 0.4` (curator.py, `Curator.__init__`). -/
def relevance_threshold : ℚ := 0.4

/-- Official-disclosure title markers (curator.py line 55). -/
def officialTitleMarkers : List String :=
  ["esg report", "impact report", "sustainability report", "10-k"]

/-- Boost 1 condition: any official marker occurs in the lower-cased title. -/
def hasOfficialTitleMarker (d : RawDoc) : Bool :=
  officialTitleMarkers.any (fun k => (d.title.toLower).containsSubstr k)

/-- Boost 2 condition: `'methane' in content or 'ghg emissions' in content`
on the lower-cased content (curator.py line 59). -/
def hasClimateContentMarker (d : RawDoc) : Bool :=
  (d.content.toLower).containsSubstr "methane"
    || (d.content.toLower).containsSubstr "ghg emissions"

/-- `doc.get('source') == 'company_website'` (curator.py line 45). -/
def isCompanyWebsite (d : RawDoc) : Bool := d.source == "company_website"

/-- The authority boost accumulated by curator.py lines 54-64:
+0.20 official title marker, +0.10 climate content marker,
+0.15 first-party source with content longer than 1000 characters. -/
def authorityBoost (d : RawDoc) : ℚ :=
  (if hasOfficialTitleMarker d then 0.20 else 0)
    + (if hasClimateContentMarker d then 0.10 else 0)
    + (if isCompanyWebsite d && decide (1000 < d.content.length) then 0.15 else 0)

/-- `final_score = min(1.0, tavily_score + authority_boost)` (curator.py line 67). -/
def finalScore (d : RawDoc) : ℚ := min 1.0 (d.score + authorityBoost d)

/-- Keep decision (curator.py line 71):
`final_score >= self.relevance_threshold or is_company_website`. -/
def keepDoc (d : RawDoc) : Bool :=
  decide (relevance_threshold ≤ finalScore d) || isCompanyWebsite d

/-- Ordering for the descending sort on the stored overall score
(curator.py line 111; the stored `overall_score` equals `finalScore`). -/
def scoreDescRel (a b : RawDoc) : Prop := finalScore b ≤ finalScore a

instance : DecidableRel scoreDescRel :=
  fun a b => inferInstanceAs (Decidable (finalScore b ≤ finalScore a))

instance : IsTotal RawDoc scoreDescRel := ⟨fun _ _ => le_total _ _⟩

instance : IsTrans RawDoc scoreDescRel := ⟨fun _ _ _ hab hbc => le_trans hbc hab⟩

/-- `Curator.evaluate_documents`: keep the documents passing `keepDoc`
(in input order) and stable-sort them by final score, descending
(Python's `list.sort` is a stable sort; a stable insertion sort models it). -/
def evaluate_documents (docs : List RawDoc) : List RawDoc :=
  List.insertionSort scoreDescRel (docs.filter keepDoc)

/-- C1: a document appears among the evaluated/retained documents iff its
final score reaches the 0.4 threshold or it is a first-party
(`company_website`) document; in particular no minimum score is required
for first-party documents. -/
theorem curator_keeps_iff_threshold_or_first_party (docs : List RawDoc) (d : RawDoc) :
    d ∈ evaluate_documents docs ↔
      d ∈ docs ∧ (relevance_threshold ≤ finalScore d ∨ d.source = "company_website") := by
  unfold evaluate_documents
  rw [List.mem_insertionSort, List.mem_filter]
  simp [keepDoc, isCompanyWebsite]

/-- C2: the final score is `min(1.0, baseScore + authorityBoost)`, the
authority boost is exactly the sum of the three boost components and lies
in `[0, 0.45]`, and the final score never exceeds 1.0. -/
theorem curator_score_boost_sum_range_and_cap (d : RawDoc) :
    authorityBoost d =
        (if hasOfficialTitleMarker d then (0.20 : ℚ) else 0)
          + (if hasClimateContentMarker d then 0.10 else 0)
          + (if isCompanyWebsite d && decide (1000 < d.content.length) then 0.15 else 0)
      ∧ 0 ≤ authorityBoost d ∧ authorityBoost d ≤ 0.45
      ∧ finalScore d = min 1.0 (d.score + authorityBoost d)
      ∧ finalScore d ≤ 1.0 := by
  refine ⟨rfl, ?_, ?_, rfl, min_le_left _ _⟩ <;>
    (unfold authorityBoost; split_ifs <;> norm_num)

/-!
### URL parsing model

Shallow embedding of the subset of `urllib.parse.urlsplit` / `urlunsplit`
exercised by `Curator.curate_data` (curator.py lines 173-204) and
`normalize_url` (backend/utils/references.py lines 91-107).  `urlparse`'s
params component is kept inside `path` (the round trip through
`_replace(query='', fragment='').geturl()` leaves `path;params` intact,
so the merged representation produces the same output string).
-/

/-- Characters admitted in a URL scheme by `urllib.parse`. -/
def schemeChar (c : Char) : Bool :=
  c.isAlpha || c.isDigit || c == '+' || c == '-' || c == '.'

/-- A character ending the netloc portion of a URL. -/
def netlocDelim (c : Char) : Bool := c == '/' || c == '?' || c == '#'

/-- The components returned by `urlsplit`. -/
structure UrlParts where
  scheme : List Char
  netloc : List Char
  path : List Char
  query : List Char
  fragment : List Char
  deriving DecidableEq

/-- Split a character list at the first occurrence of `c`
(`str.split(c, 1)` / `str.find(c)`). -/
def splitFirst (c : Char) : List Char → Option (List Char × List Char)
  | [] => none
  | a :: rest =>
    if a = c then some ([], rest)
    else
      match splitFirst c rest with
      | none => none
      | some pp => some (a :: pp.1, pp.2)

/-- `urlsplit`'s scheme admissibility test: nonempty, first character an
ASCII letter, all characters scheme characters. -/
def validScheme : List Char → Bool
  | [] => false
  | c :: rest => c.isAlpha && (c :: rest).all schemeChar

/-- Scheme extraction: split at the first `':'`; on an admissible prefix the
scheme is that prefix lower-cased, otherwise there is no scheme. -/
def splitScheme (l : List Char) : List Char × List Char :=
  match splitFirst ':' l with
  | none => ([], l)
  | some pp => if validScheme pp.1 then (pp.1.map Char.toLower, pp.2) else ([], l)

/-- Netloc extraction: after a leading `"//"`, the netloc runs to the first
`'/'`, `'?'` or `'#'`. -/
def splitNetloc (l : List Char) : List Char × List Char :=
  if l.take 2 = ['/', '/'] then
    ((l.drop 2).takeWhile (fun c => !netlocDelim c),
      (l.drop 2).dropWhile (fun c => !netlocDelim c))
  else ([], l)

/-- Split at the first occurrence of marker `c`, keeping both sides
(`url.split(c, 1)` when present, otherwise everything on the left). -/
def splitAtMark (c : Char) (l : List Char) : List Char × List Char :=
  match splitFirst c l with
  | none => (l, [])
  | some pp => pp

/-- `urlsplit`: scheme, then netloc, then fragment (first `'#'`), then
query (first `'?'`), in exactly this order. -/
def urlsplitL (l : List Char) : UrlParts :=
  let s := splitScheme l
  let n := splitNetloc s.2
  let f := splitAtMark '#' n.2
  let q := splitAtMark '?' f.1
  ⟨s.1, n.1, q.1, q.2, f.2⟩

/-- `urlunsplit`: reassemble components into a URL string. -/
def urlunsplitL (p : UrlParts) : List Char :=
  let url0 := p.path
  let url1 :=
    if p.netloc ≠ [] ∨ (url0 ≠ [] ∧ url0.take 2 = ['/', '/']) then
      '/' :: '/' :: p.netloc
        ++ (if url0 ≠ [] ∧ url0.head? ≠ some '/' then '/' :: url0 else url0)
    else url0
  let url2 := if p.scheme ≠ [] then p.scheme ++ ':' :: url1 else url1
  let url3 := if p.query ≠ [] then url2 ++ '?' :: p.query else url2
  if p.fragment ≠ [] then url3 ++ '#' :: p.fragment else url3

/-- Lower-case every character (`str.lower()`, ASCII). -/
def lowerL (l : List Char) : List Char := l.map Char.toLower

/-- `str.rstrip('/')`: drop every trailing slash. -/
def rstripSlashes (l : List Char) : List Char :=
  (l.reverse.dropWhile (fun c => c == '/')).reverse

/-- `urlsplit` raises `ValueError` on a netloc containing `'['` without
`']'` or vice versa; the curator catches it and skips the entry. -/
def bracketsOk (netloc : List Char) : Bool :=
  netloc.contains '[' == netloc.contains ']'

/-- curator.py line 191: clear query and fragment, lower-case scheme and
netloc, reassemble, and strip trailing slashes. -/
def curatorClean (p : UrlParts) : List Char :=
  rstripSlashes (urlunsplitL ⟨lowerL p.scheme, lowerL p.netloc, p.path, [], []⟩)

/-- curator.py lines 180-184: prepend `https://` when the parsed URL has no
scheme (the prepended string is then re-parsed). -/
def effectiveUrlL (l : List Char) : List Char :=
  if (urlsplitL l).scheme = [] then "https://".data ++ l else l

/-- The curator's URL normalization (curator.py lines 179-194): `none` when
parsing raises (IPv6 bracket mismatch) or the effective URL has no netloc,
otherwise the cleaned URL. -/
def normalizeCuratorL (l : List Char) : Option (List Char) :=
  if bracketsOk (urlsplitL l).netloc = false then none
  else if bracketsOk (urlsplitL (effectiveUrlL l)).netloc = false then none
  else if (urlsplitL (effectiveUrlL l)).netloc = [] then none
  else some (curatorClean (urlsplitL (effectiveUrlL l)))

/-- String-level wrapper for the curator's URL normalization. -/
def normalize_curator_url (s : String) : Option String :=
  (normalizeCuratorL s.data).map String.mk

/-!
### Curator dedup and per-category curation (curator.py `curate_data`)
-/

/-- The `unique_docs` dict accumulation (curator.py lines 174-203): walk the
raw entries in insertion order, normalize each URL, skip entries that fail
normalization, and on a key collision keep the first-seen entry.  The kept
document's `url` field is overwritten with the cleaned URL. -/
def uniqueDocsGo : List (String × RawDoc) → List (String × RawDoc) → List (String × RawDoc)
  | [], acc => acc
  | (u, d) :: rest, acc =>
    match normalize_curator_url u with
    | none => uniqueDocsGo rest acc
    | some n =>
      if n ∈ acc.map Prod.fst then uniqueDocsGo rest acc
      else uniqueDocsGo rest (acc ++ [(n, { d with url := n })])

/-- `unique_docs` built from an empty dict. -/
def uniqueDocs (data : List (String × RawDoc)) : List (String × RawDoc) :=
  uniqueDocsGo data []

/-- Descending ordering on the stored overall score of keyed documents
(curator.py lines 245-249). -/
def pairScoreDescRel (a b : String × RawDoc) : Prop :=
  finalScore b.2 ≤ finalScore a.2

instance : DecidableRel pairScoreDescRel :=
  fun a b => inferInstanceAs (Decidable (finalScore b.2 ≤ finalScore a.2))

instance : IsTotal (String × RawDoc) pairScoreDescRel := ⟨fun _ _ => le_total _ _⟩

instance : IsTrans (String × RawDoc) pairScoreDescRel :=
  ⟨fun _ _ _ hab hbc => le_trans hbc hab⟩

/-- One category of `Curator.curate_data`: normalize and dedupe, keep the
documents passing `keepDoc` (the dict comprehension at lines 239-241
restores `unique_docs` insertion order, so the evaluation sort is
re-done at lines 245-249), stable-sort by score descending, cap at 30. -/
def curateCategory (data : List (String × RawDoc)) : List (String × RawDoc) :=
  (List.insertionSort pairScoreDescRel
    ((uniqueDocs data).filter fun e => keepDoc e.2)).take 30

/-! ### Helper lemmas about characters and list splitting -/

theorem toNat_ofNatAux (n : ℕ) (h : n.isValidChar) : (Char.ofNatAux n h).toNat = n := rfl

/-- `Char.toLower` either fixes its argument or returns an ASCII lowercase
letter. -/
theorem toLower_image (c : Char) :
    c.toLower = c ∨ (97 ≤ c.toLower.toNat ∧ c.toLower.toNat ≤ 122) := by
  unfold Char.toLower
  by_cases h : c.toNat ≥ 65 ∧ c.toNat ≤ 90
  · right
    rw [if_pos h]
    have hv : (c.toNat + 32).isValidChar := Or.inl (by omega)
    unfold Char.ofNat
    rw [dif_pos hv, toNat_ofNatAux]
    omega
  · left
    rw [if_neg h]

/-- If `t` is not an ASCII lowercase letter, the only character lowering to
`t` is `t` itself. -/
theorem toLower_eq_of_notLower {t : Char} (ht : t.toNat < 97 ∨ 122 < t.toNat)
    {c : Char} (h : c.toLower = t) : c = t := by
  rcases toLower_image c with h2 | h2
  · rw [← h2, h]
  · rw [h] at h2
    omega

theorem splitFirst_eq_some {c : Char} {l pre post : List Char}
    (h : splitFirst c l = some (pre, post)) : l = pre ++ c :: post ∧ c ∉ pre := by
  induction l generalizing pre post with
  | nil => simp [splitFirst] at h
  | cons a rest ih =>
    rw [splitFirst] at h
    by_cases hac : a = c
    · rw [if_pos hac] at h
      cases h
      simp [hac]
    · rw [if_neg hac] at h
      cases hsp : splitFirst c rest with
      | none => rw [hsp] at h; cases h
      | some pp =>
        rw [hsp] at h
        cases h
        obtain ⟨h1, h2⟩ := @ih pp.1 pp.2 (by rw [hsp])
        refine ⟨by rw [List.cons_append, ← h1], ?_⟩
        intro hmem
        rcases List.mem_cons.mp hmem with h3 | h3
        · exact hac h3.symm
        · exact h2 h3

theorem splitFirst_eq_none {c : Char} {l : List Char}
    (h : splitFirst c l = none) : c ∉ l := by
  induction l with
  | nil => simp
  | cons a rest ih =>
    rw [splitFirst] at h
    by_cases hac : a = c
    · rw [if_pos hac] at h; cases h
    · rw [if_neg hac] at h
      intro hmem
      rcases List.mem_cons.mp hmem with h3 | h3
      · exact hac h3.symm
      · cases hsp : splitFirst c rest with
        | none => exact ih hsp h3
        | some pp => rw [hsp] at h; cases h

theorem splitFirst_append_cons {c : Char} {xs ys : List Char} (h : c ∉ xs) :
    splitFirst c (xs ++ c :: ys) = some (xs, ys) := by
  induction xs with
  | nil => simp [splitFirst]
  | cons a rest ih =>
    have hac : ¬(a = c) := fun hh => h (hh ▸ List.mem_cons_self a rest)
    rw [List.cons_append, splitFirst, if_neg hac,
      ih (fun hm => h (List.mem_cons_of_mem a hm))]

theorem mem_splitAtMark_fst {c x : Char} {l : List Char}
    (h : x ∈ (splitAtMark c l).1) : x ∈ l ∧ x ≠ c := by
  unfold splitAtMark at h
  cases hsp : splitFirst c l with
  | none =>
    rw [hsp] at h
    exact ⟨h, fun hx => splitFirst_eq_none hsp (hx ▸ h)⟩
  | some pp =>
    rw [hsp] at h
    obtain ⟨h1, h2⟩ := @splitFirst_eq_some c l pp.1 pp.2 (by rw [hsp])
    exact ⟨h1 ▸ List.mem_append_left _ h, fun hx => h2 (hx ▸ h)⟩

/-! ### Structural properties of the URL split -/

theorem netloc_chars {l : List Char} {x : Char}
    (h : x ∈ (urlsplitL l).netloc) : netlocDelim x = false := by
  simp only [urlsplitL] at h
  unfold splitNetloc at h
  split at h
  · simpa using List.mem_takeWhile_imp h
  · simp at h

theorem path_chars {l : List Char} {x : Char}
    (h : x ∈ (urlsplitL l).path) : x ≠ '?' ∧ x ≠ '#' := by
  simp only [urlsplitL] at h
  obtain ⟨h1, hq⟩ := mem_splitAtMark_fst h
  obtain ⟨_, hf⟩ := mem_splitAtMark_fst h1
  exact ⟨hq, hf⟩

theorem scheme_chars {l : List Char} {x : Char}
    (h : x ∈ (urlsplitL l).scheme) :
    ∃ c0, schemeChar c0 = true ∧ x = c0.toLower := by
  simp only [urlsplitL] at h
  unfold splitScheme at h
  cases hsp : splitFirst ':' l with
  | none => rw [hsp] at h; simp at h
  | some pp =>
    rw [hsp] at h
    dsimp only at h
    by_cases hv : validScheme pp.1
    · rw [if_pos hv] at h
      simp only [List.mem_map] at h
      obtain ⟨c0, hc0, hlow⟩ := h
      refine ⟨c0, ?_, hlow.symm⟩
      cases hp : pp.1 with
      | nil => rw [hp] at hc0; simp at hc0
      | cons a rest =>
        rw [hp] at hv
        unfold validScheme at hv
        exact (List.all_eq_true.mp (Bool.and_elim_right hv)) c0 (hp ▸ hc0)
    · rw [if_neg hv] at h
      simp at h

theorem mem_lowerL {l : List Char} {x : Char} (h : x ∈ lowerL l) :
    ∃ y ∈ l, x = y.toLower := by
  simp only [lowerL, List.mem_map] at h
  obtain ⟨y, hy, hl⟩ := h
  exact ⟨y, hy, hl.symm⟩

/-- The head of a `dropWhile` result never satisfies the predicate. -/
theorem head?_dropWhile_not {p : Char → Bool} {l : List Char} {a : Char}
    (h : (l.dropWhile p).head? = some a) : p a = false := by
  induction l with
  | nil => simp [List.dropWhile] at h
  | cons b rest ih =>
    rw [List.dropWhile_cons] at h
    split at h
    · exact ih h
    · cases h
      rename_i hb
      exact Bool.of_not_eq_true hb

theorem rstripSlashes_getLast {l : List Char} {a : Char}
    (h : (rstripSlashes l).getLast? = some a) : a ≠ '/' := by
  unfold rstripSlashes at h
  rw [List.getLast?_reverse] at h
  have := head?_dropWhile_not h
  simpa using this

/-- Stripping trailing slashes from `A ++ B` leaves `A` intact when `A` does
not end in a slash. -/
theorem rstripSlashes_append {A B : List Char} {a : Char}
    (hA : A.getLast? = some a) (ha : a ≠ '/') :
    rstripSlashes (A ++ B) = A ++ rstripSlashes B := by
  have hrev : A.reverse.head? = some a := by rw [List.head?_reverse]; exact hA
  obtain ⟨t, hAt⟩ : ∃ t, A.reverse = a :: t := by
    cases hc : A.reverse with
    | nil => rw [hc] at hrev; cases hrev
    | cons b t =>
      rw [hc] at hrev
      cases hrev
      exact ⟨t, rfl⟩
  have hdropA : A.reverse.dropWhile (fun c => c == '/') = A.reverse := by
    rw [hAt, List.dropWhile_cons, if_neg (by simp [ha])]
  unfold rstripSlashes
  rw [List.reverse_append, List.dropWhile_append]
  split
  · rename_i hemp
    rw [List.isEmpty_iff] at hemp
    rw [hdropA, hemp, List.reverse_reverse, List.reverse_nil, List.append_nil]
  · rw [List.reverse_append, List.reverse_reverse]

/-- Characters of `rstripSlashes l` come from `l`. -/
theorem mem_rstripSlashes {l : List Char} {x : Char}
    (h : x ∈ rstripSlashes l) : x ∈ l := by
  unfold rstripSlashes at h
  rw [List.mem_reverse] at h
  exact List.mem_reverse.mp ((List.dropWhile_sublist _).mem h)

theorem mem_of_getLast?M {α : Type} {l : List α} {a : α}
    (h : l.getLast? = some a) : a ∈ l := by
  rw [← List.head?_reverse] at h
  have hm : a ∈ l.reverse := by
    cases hc : l.reverse with
    | nil => rw [hc] at h; cases h
    | cons b t =>
      rw [hc] at h
      cases h
      exact List.mem_cons_self _ _
  exact List.mem_reverse.mp hm

/-- Shape of the cleaned URL produced by the curator for a parse with a
scheme and a nonempty netloc: lower-cased scheme, `"://"`, lower-cased
netloc, then a remainder drawn from the path that does not end in `'/'`. -/
theorem curatorClean_decomp (p : UrlParts) (hs : p.scheme ≠ []) (hn : p.netloc ≠ [])
    (hnd : ∀ x ∈ p.netloc, netlocDelim x = false) :
    ∃ rest, curatorClean p
        = lowerL p.scheme ++ ':' :: '/' :: '/' :: (lowerL p.netloc ++ rest)
      ∧ (∀ x ∈ rest, x ∈ '/' :: p.path)
      ∧ (∀ b, (curatorClean p).getLast? = some b → b ≠ '/') := by
  have hln : lowerL p.netloc ≠ [] := by
    simpa [lowerL] using hn
  have hls : lowerL p.scheme ≠ [] := by
    simpa [lowerL] using hs
  obtain ⟨a, ha⟩ : ∃ a, (lowerL p.netloc).getLast? = some a := by
    cases hc : (lowerL p.netloc).getLast? with
    | none => exact absurd (List.getLast?_eq_none_iff.mp hc) hln
    | some a => exact ⟨a, rfl⟩
  have hane : a ≠ '/' := by
    obtain ⟨y, hy, hxy⟩ := mem_lowerL (mem_of_getLast?M ha)
    have hynd := hnd y hy
    intro hcon
    have hy' : y = '/' := toLower_eq_of_notLower (by decide) (hcon ▸ hxy.symm)
    rw [hy'] at hynd
    simp [netlocDelim] at hynd
  set B := (if p.path ≠ [] ∧ p.path.head? ≠ some '/' then '/' :: p.path else p.path) with hB
  have hunsplit :
      urlunsplitL ⟨lowerL p.scheme, lowerL p.netloc, p.path, [], []⟩
        = (lowerL p.scheme ++ ':' :: '/' :: '/' :: lowerL p.netloc) ++ B := by
    unfold urlunsplitL
    dsimp only
    rw [if_pos (Or.inl hln), if_pos hls, if_neg (by simp), if_neg (by simp)]
    simp [hB]
  have hAlast : ((lowerL p.scheme ++ ':' :: '/' :: '/' :: lowerL p.netloc)).getLast? = some a := by
    rw [List.getLast?_append]
    have : (':' :: '/' :: '/' :: lowerL p.netloc).getLast? = some a := by
      rw [show (':' :: '/' :: '/' :: lowerL p.netloc)
            = [':', '/', '/'] ++ lowerL p.netloc by simp, List.getLast?_append, ha]
      rfl
    rw [this]
    rfl
  refine ⟨rstripSlashes B, ?_, ?_, ?_⟩
  · unfold curatorClean
    rw [hunsplit, rstripSlashes_append hAlast hane]
    simp
  · intro x hx
    have hxB := mem_rstripSlashes hx
    rw [hB] at hxB
    by_cases hc : p.path ≠ [] ∧ p.path.head? ≠ some '/'
    · rw [if_pos hc] at hxB
      exact hxB
    · rw [if_neg hc] at hxB
      exact List.mem_cons_of_mem _ hxB
  · intro b hb
    unfold curatorClean at hb
    rw [hunsplit, rstripSlashes_append hAlast hane, List.getLast?_append] at hb
    cases hr : (rstripSlashes B).getLast? with
    | none =>
      rw [hr] at hb
      rw [Option.none_or] at hb
      rw [hAlast] at hb
      cases hb
      exact hane
    | some b2 =>
      rw [hr] at hb
      cases hb
      exact rstripSlashes_getLast hr

/-- String-level `urlsplit`. -/
def urlsplitStr (s : String) : UrlParts := urlsplitL s.data

/-- String-level effective URL (after the conditional `https://` prepend). -/
def effectiveUrl (s : String) : String := String.mk (effectiveUrlL s.data)

/-- The effective URL always parses with a nonempty scheme: either the
original scheme was nonempty, or the prepended `https://` supplies one. -/
theorem effective_scheme_ne_nil (l : List Char) :
    (urlsplitL (effectiveUrlL l)).scheme ≠ [] := by
  unfold effectiveUrlL
  split
  · have hform : "https://".data ++ l = "https".data ++ ':' :: ('/' :: '/' :: l) := by
      rw [show "https://".data = "https".data ++ (':' :: ['/', '/']) by decide]
      simp
    rw [hform]
    simp only [urlsplitL]
    unfold splitScheme
    rw [splitFirst_append_cons (by decide)]
    dsimp only
    rw [if_pos (by decide)]
    dsimp only
    intro hcon
    simp at hcon
  · rename_i hsch
    exact hsch

/-- Parse shape of the prepended URL when the original parse found a netloc
behind a leading `"//"` and no scheme: the prepended URL has netloc `[]`. -/
theorem prepended_netloc_of_slashslash (l : List Char) (h2 : l.take 2 = ['/', '/']) :
    (urlsplitL ("https://".data ++ l)).netloc = [] := by
  have hform : "https://".data ++ l = "https".data ++ ':' :: ('/' :: '/' :: l) := by
    rw [show "https://".data = "https".data ++ (':' :: ['/', '/']) by decide]
    simp
  obtain ⟨l2, hl2⟩ : ∃ l2, l = '/' :: '/' :: l2 := by
    cases l with
    | nil => simp [List.take] at h2
    | cons a t =>
      cases t with
      | nil => simp [List.take] at h2
      | cons b t2 =>
        simp [List.take] at h2
        exact ⟨t2, by rw [h2.1, h2.2]⟩
  rw [hform]
  simp only [urlsplitL]
  unfold splitScheme
  rw [splitFirst_append_cons (by decide)]
  dsimp only
  rw [if_pos (by decide)]
  dsimp only
  unfold splitNetloc
  rw [if_pos (by simp [List.take])]
  dsimp only
  rw [hl2]
  simp [List.takeWhile, netlocDelim]

/-- When the raw URL has no scheme, normalizing it gives the same result as
normalizing the URL with `https://` prepended (curator.py lines 182-184). -/
theorem normalize_prepends_https (url : String) (h : (urlsplitStr url).scheme = []) :
    normalize_curator_url url = normalize_curator_url ("https://" ++ url) := by
  unfold normalize_curator_url normalizeCuratorL
  have h1 : (splitScheme url.data).1 = [] := by
    simpa only [urlsplitStr, urlsplitL] using h
  have h2tail : (splitScheme url.data).2 = url.data := by
    unfold splitScheme at h1 ⊢
    cases hsp : splitFirst ':' url.data with
    | none => dsimp only
    | some pp =>
      rw [hsp] at h1
      dsimp only at h1 ⊢
      by_cases hv : validScheme pp.1
      · rw [if_pos hv] at h1
        dsimp only at h1
        rw [List.map_eq_nil_iff] at h1
        rw [h1] at hv
        cases hv
      · rw [if_neg hv]
  have hdata : ("https://" ++ url).data = "https://".data ++ url.data := by
    simp
  have heff : effectiveUrlL url.data = "https://".data ++ url.data := by
    unfold effectiveUrlL
    rw [if_pos (show (urlsplitL url.data).scheme = [] from h)]
  have hscheme2 : (urlsplitL ("https://".data ++ url.data)).scheme ≠ [] := by
    have := effective_scheme_ne_nil url.data
    rw [heff] at this
    exact this
  have heff2 : effectiveUrlL ("https://".data ++ url.data) = "https://".data ++ url.data := by
    unfold effectiveUrlL
    rw [if_neg hscheme2]
  rw [hdata, heff, heff2]
  by_cases hbr : bracketsOk (urlsplitL ("https://".data ++ url.data)).netloc = false
  · -- the double check on the prepended parse collapses on both sides
    rw [if_pos hbr]
    by_cases hbr0 : bracketsOk (urlsplitL url.data).netloc = false
    · rw [if_pos hbr0, if_pos hbr]
    · rw [if_neg hbr0, if_pos hbr]
  · rw [if_neg hbr]
    by_cases hbr0 : bracketsOk (urlsplitL url.data).netloc = false
    · -- the original parse has a bracket-mismatched netloc, hence a
      -- nonempty netloc behind "//": the prepended parse then has no netloc
      have hnet0 : (urlsplitL url.data).netloc ≠ [] := by
        intro hc
        rw [hc] at hbr0
        simp [bracketsOk] at hbr0
      have htake : url.data.take 2 = ['/', '/'] := by
        by_contra hcon
        have hemp : (urlsplitL url.data).netloc = [] := by
          simp only [urlsplitL]
          rw [h2tail]
          unfold splitNetloc
          rw [if_neg hcon]
        exact hnet0 hemp
      rw [if_pos hbr0, if_neg hbr,
        if_pos (prepended_netloc_of_slashslash url.data htake)]
    · rw [if_neg hbr0, if_neg hbr]

/-! ### First-seen deduplication -/

/-- The document the first-seen policy should retain for normalized URL `n`:
the first raw entry whose URL normalizes to `n`, with its `url` field
rewritten to `n`. -/
def firstSeenDoc (n : String) (data : List (String × RawDoc)) : Option RawDoc :=
  (data.filterMap fun e =>
    if normalize_curator_url e.1 = some n then some { e.2 with url := n } else none).head?

theorem lookup_eq_none_of_not_mem {l : List (String × RawDoc)} {n : String}
    (h : n ∉ l.map Prod.fst) : l.lookup n = none := by
  induction l with
  | nil => rfl
  | cons e rest ih =>
    obtain ⟨u, v⟩ := e
    rw [List.map_cons] at h
    have h1 : (n == u) = false := by
      simp only [beq_eq_false_iff_ne, ne_eq]
      exact fun hc => h (by simp [hc])
    have h2 : n ∉ rest.map Prod.fst := fun hc => h (List.mem_cons_of_mem _ hc)
    rw [List.lookup_cons, h1]
    exact ih h2

theorem lookup_isSome_of_mem {l : List (String × RawDoc)} {n : String}
    (h : n ∈ l.map Prod.fst) : (l.lookup n).isSome = true := by
  induction l with
  | nil => simp at h
  | cons e rest ih =>
    obtain ⟨u, v⟩ := e
    rw [List.lookup_cons]
    by_cases h1 : n = u
    · rw [show (n == u) = true by simp [h1]]
      rfl
    · rw [show (n == u) = false by simp [h1]]
      rw [List.map_cons] at h
      rcases List.mem_cons.mp h with hc | hc
      · exact absurd hc h1
      · exact ih hc

/-- Accumulator-generalized first-seen property of the `unique_docs`
construction. -/
theorem uniqueDocsGo_lookup (l : List (String × RawDoc)) (acc : List (String × RawDoc))
    (n : String) :
    (uniqueDocsGo l acc).lookup n = (acc.lookup n).or (firstSeenDoc n l) := by
  induction l generalizing acc with
  | nil =>
    unfold uniqueDocsGo firstSeenDoc
    simp
  | cons e rest ih =>
    obtain ⟨u, d⟩ := e
    unfold uniqueDocsGo
    cases hnorm : normalize_curator_url u with
    | none =>
      rw [ih]
      unfold firstSeenDoc
      rw [List.filterMap_cons]
      dsimp only
      rw [if_neg (by simp [hnorm])]
    | some m =>
      dsimp only
      by_cases hm : m ∈ acc.map Prod.fst
      · rw [if_pos hm, ih]
        unfold firstSeenDoc
        rw [List.filterMap_cons]
        dsimp only
        by_cases hmn : m = n
        · rw [hmn] at hm
          have hsome := lookup_isSome_of_mem hm
          obtain ⟨v, hv⟩ := Option.isSome_iff_exists.mp hsome
          rw [hv]
          rfl
        · rw [if_neg (by simp [hnorm]; exact hmn)]
      · rw [if_neg hm, ih, List.lookup_append]
        unfold firstSeenDoc
        rw [List.filterMap_cons]
        dsimp only
        by_cases hmn : m = n
        · subst hmn
          have haccn : acc.lookup m = none := lookup_eq_none_of_not_mem hm
          rw [haccn, if_pos (by rw [hnorm])]
          rw [List.lookup_cons]
          rw [show (m == m) = true by simp]
          rfl
        · have hb : (n == m) = false := by
            simp only [beq_eq_false_iff_ne, ne_eq]
            exact fun hc => hmn hc.symm
          rw [if_neg (by simp [hnorm]; exact hmn)]
          rw [List.lookup_cons, hb]
          simp

/-- First-seen dedup at the top level: the retained document for key `n`
is the first raw entry normalizing to `n`. -/
theorem uniqueDocs_lookup (data : List (String × RawDoc)) (n : String) :
    (uniqueDocs data).lookup n = firstSeenDoc n data := by
  unfold uniqueDocs
  rw [uniqueDocsGo_lookup]
  rfl

/-- Keys of the `unique_docs` association list are pairwise distinct. -/
theorem uniqueDocsGo_keys_nodup (l : List (String × RawDoc))
    (acc : List (String × RawDoc)) (hacc : (acc.map Prod.fst).Nodup) :
    ((uniqueDocsGo l acc).map Prod.fst).Nodup := by
  induction l generalizing acc with
  | nil => exact hacc
  | cons e rest ih =>
    obtain ⟨u, d⟩ := e
    unfold uniqueDocsGo
    cases hnorm : normalize_curator_url u with
    | none => exact ih acc hacc
    | some m =>
      dsimp only
      by_cases hm : m ∈ acc.map Prod.fst
      · rw [if_pos hm]
        exact ih acc hacc
      · rw [if_neg hm]
        refine ih _ ?_
        rw [List.map_append, List.nodup_append]
        refine ⟨hacc, by simp, ?_⟩
        intro x hx hxm
        simp only [List.map_cons, List.map_nil, List.mem_singleton] at hxm
        exact hm (hxm ▸ hx)

theorem uniqueDocs_keys_nodup (data : List (String × RawDoc)) :
    ((uniqueDocs data).map Prod.fst).Nodup :=
  uniqueDocsGo_keys_nodup data [] (by simp)

theorem lowered_scheme_chars {l : List Char} {x : Char}
    (h : x ∈ lowerL (urlsplitL l).scheme) : x ≠ '?' ∧ x ≠ '#' := by
  obtain ⟨y, hy, hxy⟩ := mem_lowerL h
  obtain ⟨c0, hc0, hyc⟩ := scheme_chars hy
  subst hxy
  constructor
  · intro hx
    have hy1 : y = '?' := toLower_eq_of_notLower (by decide) hx
    rw [hy1] at hyc
    have hc1 : c0 = '?' := toLower_eq_of_notLower (by decide) hyc.symm
    rw [hc1] at hc0
    simp [schemeChar] at hc0
  · intro hx
    have hy1 : y = '#' := toLower_eq_of_notLower (by decide) hx
    rw [hy1] at hyc
    have hc1 : c0 = '#' := toLower_eq_of_notLower (by decide) hyc.symm
    rw [hc1] at hc0
    simp [schemeChar] at hc0

theorem lowered_netloc_chars {l : List Char} {x : Char}
    (h : x ∈ lowerL (urlsplitL l).netloc) : x ≠ '?' ∧ x ≠ '#' := by
  obtain ⟨y, hy, hxy⟩ := mem_lowerL h
  have hnd := netloc_chars hy
  subst hxy
  constructor
  · intro hx
    have hy1 : y = '?' := toLower_eq_of_notLower (by decide) hx
    rw [hy1] at hnd
    simp [netlocDelim] at hnd
  · intro hx
    have hy1 : y = '#' := toLower_eq_of_notLower (by decide) hx
    rw [hy1] at hnd
    simp [netlocDelim] at hnd

/-- C3: the curator derives the normalized URL by prepending `https://`
when the scheme is missing, rejects URLs whose effective parse has no
host, lower-cases scheme and host while stripping query, fragment and
trailing slashes, and on key collisions the first-seen entry per
normalized URL is kept while later duplicates are dropped. -/
theorem curator_normalization_and_first_seen_dedup :
    (∀ url : String, (urlsplitStr url).scheme = [] →
        normalize_curator_url url = normalize_curator_url ("https://" ++ url))
    ∧ (∀ url : String,
        bracketsOk (urlsplitStr url).netloc = true →
        bracketsOk (urlsplitStr (effectiveUrl url)).netloc = true →
        (normalize_curator_url url = none
          ↔ (urlsplitStr (effectiveUrl url)).netloc = []))
    ∧ (∀ url n : String, normalize_curator_url url = some n →
        (∀ c ∈ n.data, c ≠ '?' ∧ c ≠ '#')
        ∧ (∀ b, n.data.getLast? = some b → b ≠ '/')
        ∧ ∃ rest, n.data
            = lowerL (urlsplitStr (effectiveUrl url)).scheme
                ++ ':' :: '/' :: '/'
                :: (lowerL (urlsplitStr (effectiveUrl url)).netloc ++ rest))
    ∧ (∀ (data : List (String × RawDoc)) (n : String),
        (uniqueDocs data).lookup n = firstSeenDoc n data) := by
  refine ⟨normalize_prepends_https, ?_, ?_, uniqueDocs_lookup⟩
  · intro url h0 h1
    unfold normalize_curator_url normalizeCuratorL
    have h0' : ¬(bracketsOk (urlsplitL url.data).netloc = false) := by
      intro hc
      rw [show bracketsOk (urlsplitL url.data).netloc = true from h0] at hc
      cases hc
    have h1' : ¬(bracketsOk (urlsplitL (effectiveUrlL url.data)).netloc = false) := by
      intro hc
      rw [show bracketsOk (urlsplitL (effectiveUrlL url.data)).netloc = true from h1] at hc
      cases hc
    rw [if_neg h0', if_neg h1']
    by_cases hnet : (urlsplitL (effectiveUrlL url.data)).netloc = []
    · rw [if_pos hnet]
      simpa using hnet
    · rw [if_neg hnet]
      simpa using hnet
  · intro url n hsome
    unfold normalize_curator_url normalizeCuratorL at hsome
    by_cases hb0 : bracketsOk (urlsplitL url.data).netloc = false
    · rw [if_pos hb0] at hsome
      cases hsome
    by_cases hb1 : bracketsOk (urlsplitL (effectiveUrlL url.data)).netloc = false
    · rw [if_neg hb0, if_pos hb1] at hsome
      cases hsome
    by_cases hnet : (urlsplitL (effectiveUrlL url.data)).netloc = []
    · rw [if_neg hb0, if_neg hb1, if_pos hnet] at hsome
      cases hsome
    rw [if_neg hb0, if_neg hb1, if_neg hnet] at hsome
    have hndata : n.data = curatorClean (urlsplitL (effectiveUrlL url.data)) := by
      have := Option.some.inj hsome
      rw [← this]
    obtain ⟨rest, heq, hrest, hlast⟩ :=
      curatorClean_decomp (urlsplitL (effectiveUrlL url.data))
        (effective_scheme_ne_nil url.data) hnet (fun x hx => netloc_chars hx)
    refine ⟨?_, ?_, ⟨rest, by rw [hndata, heq]; rfl⟩⟩
    · intro c hc
      rw [hndata, heq] at hc
      simp only [List.mem_append, List.mem_cons] at hc
      rcases hc with hc | hc | hc | hc | hc
      · exact lowered_scheme_chars hc
      · subst hc
        exact ⟨by decide, by decide⟩
      · subst hc
        exact ⟨by decide, by decide⟩
      · subst hc
        exact ⟨by decide, by decide⟩
      · rcases hc with hc2 | hc2
        · exact lowered_netloc_chars hc2
        · rcases List.mem_cons.mp (hrest c hc2) with hc3 | hc3
          · subst hc3
            exact ⟨by decide, by decide⟩
          · exact path_chars hc3
    · intro b hb
      rw [hndata] at hb
      exact hlast b hb

/-- Witness for C3 at concrete URLs: a scheme-less URL gets `https://`
prepended, a host-less URL is rejected, and a normalized URL carries no
query or fragment characters. -/
theorem curator_normalization_witness :
    normalize_curator_url "Example.COM/A/b/?q=1#f"
        = normalize_curator_url ("https://" ++ "Example.COM/A/b/?q=1#f")
    ∧ (normalize_curator_url "/nohost" = none
        ↔ (urlsplitStr (effectiveUrl "/nohost")).netloc = [])
    ∧ (∀ c ∈ ("https://example.com/A/b").data, c ≠ '?' ∧ c ≠ '#') := by
  obtain ⟨h1, h2, h3, h4⟩ := curator_normalization_and_first_seen_dedup
  exact ⟨h1 "Example.COM/A/b/?q=1#f" (by decide),
    h2 "/nohost" (by decide) (by decide),
    (h3 "Example.COM/A/b/?q=1#f" "https://example.com/A/b" (by decide)).1⟩

/-- C4: each per-category curated set holds at most 30 entries, is sorted
by final score descending, and no two of its entries share a normalized
URL. -/
theorem curated_set_cap_sorted_dedup (data : List (String × RawDoc)) :
    (curateCategory data).length ≤ 30
    ∧ List.Pairwise (fun a b : String × RawDoc => finalScore b.2 ≤ finalScore a.2)
        (curateCategory data)
    ∧ ((curateCategory data).map Prod.fst).Nodup := by
  refine ⟨?_, ?_, ?_⟩
  · unfold curateCategory
    rw [List.length_take]
    exact min_le_left _ _
  · have hp := List.sorted_insertionSort pairScoreDescRel
      ((uniqueDocs data).filter fun e => keepDoc e.2)
    exact List.Pairwise.sublist (List.take_sublist _ _) hp
  · have h0 := uniqueDocs_keys_nodup data
    have h1 : (((uniqueDocs data).filter fun e => keepDoc e.2).map Prod.fst).Nodup :=
      List.Nodup.sublist (List.Sublist.map _ (List.filter_sublist _)) h0
    have hperm := (List.perm_insertionSort pairScoreDescRel
      ((uniqueDocs data).filter fun e => keepDoc e.2)).map Prod.fst
    have h2 := hperm.nodup_iff.mpr h1
    unfold curateCategory
    rw [List.map_take]
    exact List.Nodup.sublist (List.take_sublist _ _) h2

/-!
### Reference selection (backend/utils/references.py,
`process_references_from_search_results`)
-/

/-- `s.startswith(pattern)` over character lists. -/
def startsWithL : List Char → List Char → Bool
  | _, [] => true
  | [], _ :: _ => false
  | a :: l, p :: ps => a == p && startsWithL l ps

/-- String-level `str.startswith`. -/
def strStartsWith (s pattern : String) : Bool := startsWithL s.data pattern.data

/-- A curated document as read by the reference selector: the stored
evaluation score when present, otherwise the raw collector score. -/
structure RefDoc where
  evalScore : Option ℚ
  score : ℚ
  deriving DecidableEq

/-- `normalize_url` (references.py lines 91-107): prepend `https://` unless
the URL already starts with `http://` or `https://`, drop query and
fragment, strip trailing slashes.  Unlike the curator's normalization it
does not lower-case the netloc; a parse error returns the URL unchanged. -/
def normalize_url (url : String) : String :=
  if url = "" then ""
  else
    let url2 :=
      if strStartsWith url "http://" || strStartsWith url "https://" then url
      else "https://" ++ url
    if bracketsOk (urlsplitL url2.data).netloc = false then url2
    else String.mk (rstripSlashes (urlunsplitL
      { urlsplitL url2.data with query := [], fragment := [] }))

/-- Pool all curated entries across all categories into `(url, score)`
pairs (references.py lines 143-161). -/
def pooledRefs (cats : List (List (String × RefDoc))) : List (String × ℚ) :=
  cats.flatMap fun cat => cat.map fun e => (e.1, e.2.evalScore.getD e.2.score)

/-- Descending ordering on reference scores. -/
def refScoreDescRel (a b : String × ℚ) : Prop := b.2 ≤ a.2

instance : DecidableRel refScoreDescRel :=
  fun a b => inferInstanceAs (Decidable (b.2 ≤ a.2))

instance : IsTotal (String × ℚ) refScoreDescRel := ⟨fun _ _ => le_total _ _⟩

instance : IsTrans (String × ℚ) refScoreDescRel :=
  ⟨fun _ _ _ hab hbc => le_trans hbc hab⟩

/-- references.py line 180: an entry is considered only when its URL starts
with `http://` or `https://`. -/
def validRefUrl (u : String) : Bool :=
  strStartsWith u "http://" || strStartsWith u "https://"

/-- The dedup walk over the sorted pool (references.py lines 173-189): skip
invalid URLs, normalize, and keep the first occurrence of each normalized
URL in sorted order. -/
def dedupRefs : List (String × ℚ) → List String → List (String × ℚ)
  | [], _ => []
  | e :: rest, seen =>
    if validRefUrl e.1 = false then dedupRefs rest seen
    else if normalize_url e.1 ∈ seen then dedupRefs rest seen
    else (normalize_url e.1, e.2) :: dedupRefs rest (normalize_url e.1 :: seen)

/-- `unique_references` after the final re-sort (references.py line 240). -/
def uniqueReferences (cats : List (List (String × RefDoc))) : List (String × ℚ) :=
  List.insertionSort refScoreDescRel
    (dedupRefs (List.insertionSort refScoreDescRel (pooledRefs cats)) [])

/-- `top_reference_urls` (references.py lines 248-249): first 10 unique
references, URLs only. -/
def top_reference_urls (cats : List (List (String × RefDoc))) : List String :=
  ((uniqueReferences cats).take 10).map Prod.fst

theorem mem_dedupRefs_not_seen {L : List (String × ℚ)} {seen : List String}
    {n : String} {s : ℚ} (h : (n, s) ∈ dedupRefs L seen) : n ∉ seen := by
  induction L generalizing seen with
  | nil => simp [dedupRefs] at h
  | cons e rest ih =>
    rw [dedupRefs] at h
    by_cases h1 : validRefUrl e.1 = false
    · rw [if_pos h1] at h
      exact ih h
    · rw [if_neg h1] at h
      by_cases h2 : normalize_url e.1 ∈ seen
      · rw [if_pos h2] at h
        exact ih h
      · rw [if_neg h2] at h
        rcases List.mem_cons.mp h with hc | hc
        · cases hc
          exact h2
        · intro hn
          exact ih hc (List.mem_cons_of_mem _ hn)

theorem dedupRefs_keys_nodup (L : List (String × ℚ)) (seen : List String) :
    ((dedupRefs L seen).map Prod.fst).Nodup := by
  induction L generalizing seen with
  | nil => simp [dedupRefs]
  | cons e rest ih =>
    rw [dedupRefs]
    by_cases h1 : validRefUrl e.1 = false
    · rw [if_pos h1]
      exact ih seen
    · rw [if_neg h1]
      by_cases h2 : normalize_url e.1 ∈ seen
      · rw [if_pos h2]
        exact ih seen
      · rw [if_neg h2]
        rw [List.map_cons, List.nodup_cons]
        refine ⟨?_, ih _⟩
        intro hmem
        obtain ⟨⟨n2, s2⟩, hm, hfst⟩ := List.mem_map.mp hmem
        have hns := mem_dedupRefs_not_seen hm
        have hfst2 : n2 = normalize_url e.1 := hfst
        rw [hfst2] at hns
        exact hns (List.mem_cons_self _ _)

/-- Score dominance of the retained occurrence: over a pool sorted by
descending score, the first-seen entry for a normalized URL carries a
score at least as large as every occurrence of that URL. -/
theorem dedupRefs_score_max {L : List (String × ℚ)} {seen : List String}
    (hsorted : List.Pairwise (fun a b : String × ℚ => b.2 ≤ a.2) L)
    {n : String} {s : ℚ} (h : (n, s) ∈ dedupRefs L seen) :
    ∀ u t, (u, t) ∈ L → validRefUrl u = true → normalize_url u = n → t ≤ s := by
  induction L generalizing seen with
  | nil => simp [dedupRefs] at h
  | cons e rest ih =>
    rw [List.pairwise_cons] at hsorted
    obtain ⟨hhead, htail⟩ := hsorted
    rw [dedupRefs] at h
    intro u t hmem hvalid hnorm
    by_cases h1 : validRefUrl e.1 = false
    · rw [if_pos h1] at h
      rcases List.mem_cons.mp hmem with hc | hc
      · have hu : u = e.1 := congrArg Prod.fst hc
        rw [hu] at hvalid
        rw [hvalid] at h1
        cases h1
      · exact ih htail h u t hc hvalid hnorm
    · rw [if_neg h1] at h
      by_cases h2 : normalize_url e.1 ∈ seen
      · rw [if_pos h2] at h
        rcases List.mem_cons.mp hmem with hc | hc
        · have hne := mem_dedupRefs_not_seen h
          have hu : u = e.1 := congrArg Prod.fst hc
          rw [hu] at hnorm
          rw [hnorm] at h2
          exact absurd h2 hne
        · exact ih htail h u t hc hvalid hnorm
      · rw [if_neg h2] at h
        rcases List.mem_cons.mp h with hc | hc
        · have hs : s = e.2 := congrArg Prod.snd hc
          rcases List.mem_cons.mp hmem with hc2 | hc2
          · have ht : t = e.2 := congrArg Prod.snd hc2
            rw [ht, hs]
          · have hle : t ≤ e.2 := hhead (u, t) hc2
            rw [hs]
            exact hle
        · rcases List.mem_cons.mp hmem with hc2 | hc2
          · have hne := mem_dedupRefs_not_seen hc
            have hu : u = e.1 := congrArg Prod.fst hc2
            rw [hu] at hnorm
            rw [← hnorm] at hne
            exact absurd (List.mem_cons_self _ _) hne
          · exact ih htail hc u t hc2 hvalid hnorm

/-- C5: the reference selector returns at most 10 references, sorted by
final score descending, with no two entries sharing a normalized URL, and
each retained entry's score dominates every pooled occurrence of the same
normalized URL. -/
theorem reference_selector_bound_sorted_dedup (cats : List (List (String × RefDoc))) :
    (top_reference_urls cats).length ≤ 10
    ∧ List.Pairwise (fun a b : String × ℚ => b.2 ≤ a.2)
        ((uniqueReferences cats).take 10)
    ∧ (top_reference_urls cats).Nodup
    ∧ (∀ n s, (n, s) ∈ uniqueReferences cats →
        ∀ u t, (u, t) ∈ pooledRefs cats → validRefUrl u = true →
          normalize_url u = n → t ≤ s) := by
  refine ⟨?_, ?_, ?_, ?_⟩
  · unfold top_reference_urls
    rw [List.length_map, List.length_take]
    exact min_le_left _ _
  · have hp := List.sorted_insertionSort refScoreDescRel
      (dedupRefs (List.insertionSort refScoreDescRel (pooledRefs cats)) [])
    exact List.Pairwise.sublist (List.take_sublist _ _) hp
  · have h0 := dedupRefs_keys_nodup
      (List.insertionSort refScoreDescRel (pooledRefs cats)) []
    have hperm := (List.perm_insertionSort refScoreDescRel
      (dedupRefs (List.insertionSort refScoreDescRel (pooledRefs cats)) [])).map Prod.fst
    have h1 := hperm.nodup_iff.mpr h0
    unfold top_reference_urls
    rw [List.map_take]
    exact List.Nodup.sublist (List.take_sublist _ _) h1
  · intro n s hmem u t hpool hvalid hnorm
    have hsorted : List.Pairwise (fun a b : String × ℚ => b.2 ≤ a.2)
        (List.insertionSort refScoreDescRel (pooledRefs cats)) :=
      List.sorted_insertionSort refScoreDescRel (pooledRefs cats)
    have hmem2 : (n, s) ∈ dedupRefs
        (List.insertionSort refScoreDescRel (pooledRefs cats)) [] :=
      (List.mem_insertionSort refScoreDescRel).mp hmem
    exact dedupRefs_score_max hsorted hmem2 u t
      ((List.mem_insertionSort refScoreDescRel).mpr hpool) hvalid hnorm

/-- Concrete input for the C5 witness: two categories whose URLs collide
after normalization. -/
def refWitnessCats : List (List (String × RefDoc)) :=
  [[("https://a.com/x", ⟨some 2, 0⟩)], [("https://a.com/x/", ⟨some 1, 0⟩)]]

/-- Witness for C5: on a concrete two-category pool with a normalized-URL
collision, the retained entry dominates the dropped occurrence's score. -/
theorem reference_selector_witness :
    ("https://a.com/x", (2 : ℚ)) ∈ uniqueReferences refWitnessCats
    ∧ ("https://a.com/x/", (1 : ℚ)) ∈ pooledRefs refWitnessCats
    ∧ validRefUrl "https://a.com/x/" = true
    ∧ normalize_url "https://a.com/x/" = "https://a.com/x"
    ∧ (1 : ℚ) ≤ 2 :=
  ⟨by decide, by decide, by decide, by decide,
    (reference_selector_bound_sorted_dedup refWitnessCats).2.2.2
      "https://a.com/x" 2 (by decide) "https://a.com/x/" 1
      (by decide) (by decide) (by decide)⟩

/-!
### Progress computation (backend/graph.py, `Graph._calculate_progress`)
-/

/-- The fixed, total-ordered stage list (graph.py lines 348-353). -/
def node_order : List String :=
  ["grounding", "company_brief_node", "collector", "curator", "enricher",
    "briefing", "raw_compiler", "tagger", "airtable_uploader", "__end__"]

/-- The five parallel research stages (graph.py lines 357-360); they all
resolve to the ordinal of `company_brief_node`. -/
def research_nodes : List String :=
  ["company_brief_node", "news_signal_node", "flw_analyzer",
    "contact_finder", "engagement_finder"]

/-- Ordinal resolution (graph.py lines 355-364): parallel research stages
share `company_brief_node`'s position, other known stages use their own
position, unknown names resolve to nothing. -/
def baseIndexOf (name : String) : Option ℕ :=
  if name ∈ research_nodes then node_order.findIdx? (· == "company_brief_node")
  else if name ∈ node_order then node_order.findIdx? (· == name)
  else none

/-- `_calculate_progress` (graph.py lines 346-374):
`min(int(((base_index + 1) / (len(node_order) - 1)) * 100), 100)`, and 0
for unknown stage names.  For the ten indices that can occur, the float
expression `int(((b+1)/9)*100)` computes exactly the rational floor
`(b+1)*100 / 9` (no float rounding crosses an integer boundary there), so
the embedding uses exact natural division. -/
def calculateProgress (name : String) : ℕ :=
  match baseIndexOf name with
  | some b => min (((b + 1) * 100) / (node_order.length - 1)) 100
  | none => 0

/-- The stage ordinal named by the C6 claim formula: position in the fixed
stage list, with all five parallel collectors sharing ordinal 1. -/
def claimOrdinal (name : String) : ℕ :=
  if name ∈ research_nodes then 1
  else (node_order.findIdx? (· == name)).getD 0

/-- C6 counterexample: at stage `enricher` (ordinal 4 in the 10-entry
stage list) the code publishes 55, but the claimed formula
`min(100, round(100*(ordinal+1)/totalOrdinals))` yields 50 with
`totalOrdinals = 10` (the list length) and 56 with `totalOrdinals = 9`
(the divisor the code actually uses): the code truncates instead of
rounding. -/
theorem progress_round_claim_counterexample :
    calculateProgress "enricher" = 55
    ∧ claimOrdinal "enricher" = 4
    ∧ node_order.length = 10
    ∧ min 100 (round ((100 * ((4 : ℚ) + 1)) / 10)) = 50
    ∧ min 100 (round ((100 * ((4 : ℚ) + 1)) / (10 - 1))) = 56 := by
  refine ⟨by decide, by decide, by decide, ?_, ?_⟩ <;> norm_num [round_eq]

/-- Bridge between the rational floor of the claim formula and the natural
division the code performs. -/
theorem claim_floor_eq (k : ℕ) :
    min 100 ⌊(100 * ((k : ℚ) + 1)) / ((node_order.length : ℚ) - 1)⌋
      = ((min (((k + 1) * 100) / 9) 100 : ℕ) : ℤ) := by
  have h1 : ((node_order.length : ℚ) - 1) = ((9 : ℕ) : ℚ) := by
    norm_num [node_order]
  have h2 : (100 * ((k : ℚ) + 1)) = (((k + 1) * 100 : ℕ) : ℚ) := by
    push_cast
    ring
  rw [h1, h2, Rat.floor_natCast_div_natCast]
  omega

/-- C6 amended: for every stage name the tracker resolves (all parallel
collectors sharing ordinal 1), the published percentage is
`min(100, floor(100*(ordinal+1)/(totalOrdinals-1)))` where
`totalOrdinals = 10` is the stage-list length — i.e. the divisor is 9 and
the value is truncated, not rounded. -/
theorem progress_formula_amended (name : String)
    (h : name ∈ node_order ∨ name ∈ research_nodes) :
    (calculateProgress name : ℤ)
      = min 100 ⌊(100 * ((claimOrdinal name : ℚ) + 1)) / ((node_order.length : ℚ) - 1)⌋
    ∧ (name ∈ research_nodes → claimOrdinal name = 1) := by
  have h14 : name = "grounding" ∨ name = "company_brief_node" ∨ name = "collector"
      ∨ name = "curator" ∨ name = "enricher" ∨ name = "briefing"
      ∨ name = "raw_compiler" ∨ name = "tagger" ∨ name = "airtable_uploader"
      ∨ name = "__end__" ∨ name = "news_signal_node" ∨ name = "flw_analyzer"
      ∨ name = "contact_finder" ∨ name = "engagement_finder" := by
    rcases h with h | h <;>
      · simp only [node_order, research_nodes, List.mem_cons,
          List.not_mem_nil, or_false] at h
        tauto
  have hkey : calculateProgress name = min (((claimOrdinal name + 1) * 100) / 9) 100
      ∧ (name ∈ research_nodes → claimOrdinal name = 1) := by
    rcases h14 with rfl | rfl | rfl | rfl | rfl | rfl | rfl
      | rfl | rfl | rfl | rfl | rfl | rfl | rfl <;> exact ⟨by decide, by decide⟩
  refine ⟨?_, hkey.2⟩
  rw [hkey.1, claim_floor_eq (claimOrdinal name)]

/-- Witness for C6's amended formula at the concrete stage `enricher`. -/
theorem progress_formula_amended_witness :
    ("enricher" ∈ node_order ∨ "enricher" ∈ research_nodes)
    ∧ (calculateProgress "enricher" : ℤ)
        = min 100 ⌊(100 * ((claimOrdinal "enricher" : ℚ) + 1))
            / ((node_order.length : ℚ) - 1)⌋ :=
  ⟨by decide, (progress_formula_amended "enricher" (by decide)).1⟩

/-!
### Per-job stage traces (graph.py `_build_workflow`)
-/

/-- The strictly sequential stages after the collector fan-in
(graph.py lines 296-305). -/
def tail_stages : List String :=
  ["collector", "curator", "enricher", "briefing", "raw_compiler",
    "tagger", "airtable_uploader"]

/-- A per-job execution trace of reported stage names: `grounding`, the
five parallel research stages in any scheduling order, then the
sequential tail (graph.py lines 279-305). -/
def ValidJobTrace (t : List String) : Prop :=
  ∃ perm, perm.Perm research_nodes ∧ t = "grounding" :: perm ++ tail_stages

theorem tail_progress_values :
    tail_stages.map calculateProgress = [33, 44, 55, 66, 77, 88, 100] := by
  decide

theorem research_progress_values :
    ∀ x ∈ research_nodes, calculateProgress x = 22 := by
  decide

theorem pairwise_22s_append_tail (l : List ℕ) (hl : ∀ x ∈ l, x = 22) :
    List.Pairwise (· ≤ ·) (l ++ [33, 44, 55, 66, 77, 88, 100]) := by
  induction l with
  | nil => decide
  | cons a rest ih =>
    have ha := hl a (List.mem_cons_self _ _)
    subst ha
    rw [List.cons_append, List.pairwise_cons]
    refine ⟨?_, ih fun x hx => hl x (List.mem_cons_of_mem _ hx)⟩
    have htail22 : ∀ b ∈ [33, 44, 55, 66, 77, 88, 100], (22 : ℕ) ≤ b := by decide
    intro b hb
    rcases List.mem_append.mp hb with hb2 | hb2
    · rw [hl b (List.mem_cons_of_mem _ hb2)]
    · exact htail22 b hb2

/-- C7: for every scheduling order of the five parallel research stages,
the sequence of progress percentages reported along a job's trace is
monotonically non-decreasing. -/
theorem progress_monotone_along_trace (t : List String) (h : ValidJobTrace t) :
    List.Pairwise (· ≤ ·) (t.map calculateProgress) := by
  obtain ⟨perm, hperm, rfl⟩ := h
  simp only [List.map_cons, List.map_append, tail_progress_values]
  have hmem : ∀ x ∈ perm.map calculateProgress, x = 22 := by
    intro x hx
    obtain ⟨y, hy, hfy⟩ := List.mem_map.mp hx
    rw [← hfy]
    exact research_progress_values y (hperm.mem_iff.mp hy)
  rw [show calculateProgress "grounding" = 11 from by decide]
  refine List.Pairwise.cons ?_ (pairwise_22s_append_tail _ hmem)
  have htail11 : ∀ b ∈ [33, 44, 55, 66, 77, 88, 100], (11 : ℕ) ≤ b := by decide
  intro b hb
  rcases List.mem_append.mp hb with hb2 | hb2
  · rw [hmem b hb2]
    omega
  · exact htail11 b hb2

/-- Witness for C7: the canonical scheduling order (research stages in
declaration order) yields a non-decreasing progress sequence. -/
theorem progress_monotone_witness :
    List.Pairwise (· ≤ ·)
      (("grounding" :: research_nodes ++ tail_stages).map calculateProgress) :=
  progress_monotone_along_trace _ ⟨research_nodes, List.Perm.refl _, rfl⟩

/-!
### Reference formatting helpers (backend/utils/references.py) used by the
raw report compiler.
-/

/-- Python `str.capitalize`: first character upper-cased, remainder
lower-cased. -/
def capitalizeL : List Char → List Char
  | [] => []
  | c :: rest => c.toUpper :: rest.map Char.toLower

/-- `str.split(c)` over character lists. -/
def splitOnCharL (c : Char) : List Char → List (List Char)
  | [] => [[]]
  | a :: rest =>
    if a = c then [] :: splitOnCharL c rest
    else
      match splitOnCharL c rest with
      | [] => [[a]]
      | h :: t => (a :: h) :: t

/-- `extract_domain_name` (references.py lines 8-29). -/
def extract_domain_name (url : String) : String :=
  let d0 := lowerL url.data
  let d1 := if startsWithL d0 "https://".data then d0.drop 8 else d0
  let d2 := if startsWithL d1 "http://".data then d1.drop 7 else d1
  let d3 := if startsWithL d2 "www.".data then d2.drop 4 else d2
  let d4 := (d3.takeWhile (· ≠ '/')).takeWhile (· ≠ '?')
  let parts := splitOnCharL '.' d4
  if parts.length ≥ 2 then String.mk (capitalizeL (parts.headD []))
  else String.mk (capitalizeL d4)

/-- `extract_title_from_url_path` (references.py lines 31-67). -/
def extract_title_from_url_path (url : String) : String :=
  let p0 := lowerL url.data
  let p1 := if startsWithL p0 "https://".data then p0.drop 8 else p0
  let p2 := if startsWithL p1 "http://".data then p1.drop 7 else p1
  let p3 := if startsWithL p2 "www.".data then p2.drop 4 else p2
  let p4 := if '/' ∈ p3 then (p3.dropWhile (· ≠ '/')).drop 1 else []
  if p4 = [] then ""
  else
    let p5 := (p4.takeWhile (· ≠ '?')).takeWhile (· ≠ '#')
    let p6 := if p5.getLast? = some '/' then p5.dropLast else p5
    let p7 := p6.flatMap fun ch =>
      if ch = '-' then [' ']
      else if ch = '_' then [' ']
      else if ch = '/' then " - ".data
      else [ch]
    let words := (splitOnCharL ' ' p7).filter (· ≠ [])
    let title := String.mk (List.intercalate [' '] (words.map capitalizeL))
    if title.length > 100 then String.mk (title.data.take 97) ++ "..." else title

/-- One entry of `reference_info` as stored by the reference selector. -/
structure RefInfo where
  title : String
  domain : String
  website : String
  score : ℚ
  deriving DecidableEq

/-- `format_reference_for_markdown` (references.py lines 258-273). -/
def format_reference_for_markdown (website title url : String) : String :=
  let website2 := if website.trim = "" then extract_domain_name url else website
  let title2 :=
    if title.trim = "" ∨ title = url then
      let t := extract_title_from_url_path url
      if t = "" then "Information from " ++ website2 else t
    else title
  "* " ++ website2 ++ ". \"" ++ title2 ++ ".\" " ++ url

/-- `"\n".join(lines)`. -/
def joinNewline : List String → String
  | [] => ""
  | [a] => a
  | a :: b :: rest => a ++ "\n" ++ joinNewline (b :: rest)

/-- `format_references_section` (references.py lines 310-359). -/
def format_references_section (references : List String)
    (reference_info : List (String × RefInfo))
    (reference_titles : List (String × String)) : String :=
  if references = [] then ""
  else
    let entries := references.map fun ref =>
      let info := reference_info.lookup ref
      let website0 := (info.map RefInfo.website).getD ""
      let title0 := (info.map RefInfo.title).getD ""
      let title1 := if title0.trim = "" then (reference_titles.lookup ref).getD "" else title0
      let title2 := if title1.trim = "" ∨ title1 = ref then ref else title1
      let website2 := if website0.trim = "" then extract_domain_name ref else website0
      (website2, title2, ref)
    joinNewline ("\n## References"
      :: entries.map fun e => format_reference_for_markdown e.1 e.2.1 e.2.2)

/-!
### Raw report compiler (backend/graph.py, `simple_report_compiler_node`)
-/

/-- The slice of State read and written by the raw report compiler.
Missing keys are `none`. -/
structure CompilerState where
  company : Option String
  company_brief_briefing : Option String
  flw_sustainability_briefing : Option String
  news_signal_briefing : Option String
  engagement_briefing : Option String
  contact_briefing : Option String
  references : List String
  reference_info : List (String × RefInfo)
  reference_titles : List (String × String)
  report : Option String
  messages : List String

/-- The briefing sections in report order (graph.py lines 49-67): a section
is emitted when the key holds a string with non-blank content. -/
def reportSections (s : CompilerState) : List String :=
  ([("Company Overview & Financial Health", s.company_brief_briefing),
    ("FLW & Sustainability", s.flw_sustainability_briefing),
    ("News & Signals", s.news_signal_briefing),
    ("Engagement & Affiliations", s.engagement_briefing),
    ("Potential Contacts", s.contact_briefing)]).filterMap fun e =>
      match e.2 with
      | none => none
      | some c => if c.trim = "" then none else some ("## " ++ e.1 ++ "\n" ++ c ++ "\n")

/-- The compiled raw report (graph.py lines 58-81): header line, sections,
optional references section, joined with newlines. -/
def compiledReport (s : CompilerState) : String :=
  let header := "# " ++ s.company.getD "Research Report" ++ " Research Report (Raw)\n"
  let parts := header :: reportSections s
  let parts2 :=
    if s.references ≠ [] then
      parts ++ [format_references_section s.references s.reference_info s.reference_titles]
    else parts
  joinNewline parts2

/-- `simple_report_compiler_node` (graph.py lines 35-89): writes the
compiled report into `state['report']` and appends a status message. -/
def simple_report_compiler_node (s : CompilerState) : CompilerState :=
  { s with
      report := some (compiledReport s),
      messages := s.messages
        ++ ["Editor Bypassed. Generated raw report from 5 briefings (Length: "
              ++ toString (compiledReport s).length ++ " chars)."] }

theorem joinNewline_cons (a : String) (t : List String) :
    ∃ r, joinNewline (a :: t) = a ++ r := by
  cases t with
  | nil => exact ⟨"", by rw [joinNewline, String.append_empty]⟩
  | cons b rest =>
    exact ⟨"\n" ++ joinNewline (b :: rest), by rw [joinNewline, String.append_assoc]⟩

/-- C10: for every input state — including one with all five briefing keys
absent or blank — the compiler writes a non-empty report that begins with
the `# {company} Research Report (Raw)` header line, so the terminal
report artifact is always present once the compiler stage runs. -/
theorem raw_compiler_report_nonempty_with_header (s : CompilerState) :
    (simple_report_compiler_node s).report = some (compiledReport s)
    ∧ (∃ rest, compiledReport s
        = ("# " ++ s.company.getD "Research Report" ++ " Research Report (Raw)\n") ++ rest)
    ∧ compiledReport s ≠ "" := by
  have hdecomp : ∃ rest, compiledReport s
      = ("# " ++ s.company.getD "Research Report" ++ " Research Report (Raw)\n") ++ rest := by
    unfold compiledReport
    dsimp only
    by_cases hr : s.references ≠ []
    · rw [if_pos hr, List.cons_append]
      exact joinNewline_cons _ _
    · rw [if_neg hr]
      exact joinNewline_cons _ _
  refine ⟨rfl, hdecomp, ?_⟩
  obtain ⟨rest, hrest⟩ := hdecomp
  intro hcon
  rw [hrest] at hcon
  have hlen := congrArg String.length hcon
  rw [String.length_append, String.length_append, String.length_append] at hlen
  rw [show (" Research Report (Raw)\n" : String).length = 23 from by decide] at hlen
  rw [show ("" : String).length = 0 from by decide] at hlen
  rw [show ("# " : String).length = 2 from by decide] at hlen
  omega

/-!
### Curator failure containment and job outcome
(backend/nodes/curator.py `Curator.run`, application.py `process_research`)
-/

/-- The slice of State the Curator reads and writes.  The four v2 curated
keys are read (only) by the reference-processing step; raw and curated
document dicts are association lists; `reference_titles`/`reference_info`
are tracked as present-or-absent (their string payloads are produced by
the title machinery of references.py and matter to no claim). -/
structure CuratorState where
  messages : List String
  financial_data : Option (List (String × RawDoc))
  news_data : Option (List (String × RawDoc))
  industry_data : Option (List (String × RawDoc))
  company_data : Option (List (String × RawDoc))
  flw_data : Option (List (String × RawDoc))
  curated_financial_data : Option (List (String × RawDoc))
  curated_news_data : Option (List (String × RawDoc))
  curated_industry_data : Option (List (String × RawDoc))
  curated_company_data : Option (List (String × RawDoc))
  curated_flw_data : Option (List (String × RawDoc))
  curated_company_brief_data : Option (List (String × RawDoc))
  curated_news_signal_data : Option (List (String × RawDoc))
  curated_contact_finder_data : Option (List (String × RawDoc))
  curated_engagement_finder_data : Option (List (String × RawDoc))
  references : Option (List String)
  reference_titles : Option Unit
  reference_info : Option Unit

/-- View a curated document dict as reference-selector input: curated
documents carry `evaluation.overall_score = finalScore`. -/
def curatedAsRefCat (o : Option (List (String × RawDoc))) : List (String × RefDoc) :=
  (o.getD []).map fun e => (e.1, ⟨some (finalScore e.2), e.2.score⟩)

/-- The five v2 category keys pooled by
`process_references_from_search_results` (references.py lines 132-138),
read from the state after the per-category curation loop. -/
def refCatsOf (s : CuratorState) : List (List (String × RefDoc)) :=
  [curatedAsRefCat s.curated_company_brief_data,
    curatedAsRefCat s.curated_news_signal_data,
    curatedAsRefCat s.curated_flw_data,
    curatedAsRefCat s.curated_contact_finder_data,
    curatedAsRefCat s.curated_engagement_finder_data]

/-- `Curator.curate_data` without failure (curator.py lines 116-304):
every category key gets a curated value (empty when the raw key is absent
or empty, curated otherwise), then the reference keys are filled from the
curated state, and a curation message is appended. -/
def curateDataOk (s : CuratorState) : CuratorState :=
  let s1 := { s with
    curated_financial_data := some (curateCategory (s.financial_data.getD [])),
    curated_news_data := some (curateCategory (s.news_data.getD [])),
    curated_industry_data := some (curateCategory (s.industry_data.getD [])),
    curated_company_data := some (curateCategory (s.company_data.getD [])),
    curated_flw_data := some (curateCategory (s.flw_data.getD [])) }
  { s1 with
    references := some (top_reference_urls (refCatsOf s1)),
    reference_titles := some (),
    reference_info := some (),
    messages := s.messages ++ ["🔍 Curating research data"] }

/-- The `except` branch of `Curator.run` (curator.py lines 325-342):
append the diagnostic message and `setdefault` every output key —
keep an existing value, otherwise default to empty. -/
def curatorRunFailure (e : String) (s : CuratorState) : CuratorState :=
  { s with
    messages := s.messages ++ ["⚠️ Curator node failed critically: " ++ e],
    curated_financial_data := some (s.curated_financial_data.getD []),
    curated_news_data := some (s.curated_news_data.getD []),
    curated_industry_data := some (s.curated_industry_data.getD []),
    curated_company_data := some (s.curated_company_data.getD []),
    curated_flw_data := some (s.curated_flw_data.getD []),
    references := some (s.references.getD []),
    reference_titles := some (s.reference_titles.getD ()),
    reference_info := some (s.reference_info.getD ()) }

/-- `Curator.run` (curator.py lines 321-342): a total function — when the
body raises (`failure = some e`, covering any internal error), the
exception is caught and the failure branch runs; it never propagates. -/
def curatorRun : Option String → CuratorState → CuratorState
  | none, s => curateDataOk s
  | some e, s => curatorRunFailure e s

/-- All of the Curator's output keys are present. -/
def curatorOutputKeysPresent (s : CuratorState) : Prop :=
  s.curated_financial_data.isSome = true
  ∧ s.curated_news_data.isSome = true
  ∧ s.curated_industry_data.isSome = true
  ∧ s.curated_company_data.isSome = true
  ∧ s.curated_flw_data.isSome = true
  ∧ s.references.isSome = true
  ∧ s.reference_titles.isSome = true
  ∧ s.reference_info.isSome = true

inductive JobStatus where
  | completed
  | failed
  deriving DecidableEq

/-- Python string truthiness for an optional string. -/
def truthyStr : Option String → Bool
  | none => false
  | some s => !(s == "")

/-- `state.get('report') or (state.get('editor') or {}).get('report')`
(application.py line 169). -/
def report_content (report editorReport : Option String) : Option String :=
  if truthyStr report then report else editorReport

/-- The terminal decision of `process_research` (application.py lines
174-213): completed when a usable report artifact exists, failed
otherwise. -/
def jobOutcome (report editorReport : Option String) : JobStatus :=
  if truthyStr (report_content report editorReport) then .completed else .failed

/-- C8: the Curator never propagates an internal error — on every input
(failing or not) it returns a state with every output key present, a
failure appends a diagnostic message — and, after the graph completes, a
job is marked failed exactly when no usable (non-empty) report artifact
exists in the final state. -/
theorem curator_failure_contained_and_terminal_artifact_rule :
    (∀ (failure : Option String) (s : CuratorState),
        curatorOutputKeysPresent (curatorRun failure s))
    ∧ (∀ (e : String) (s : CuratorState),
        (curatorRun (some e) s).messages
          = s.messages ++ ["⚠️ Curator node failed critically: " ++ e])
    ∧ (∀ report editorReport : Option String,
        jobOutcome report editorReport = JobStatus.failed
          ↔ (report_content report editorReport = none
              ∨ report_content report editorReport = some "")) := by
  refine ⟨?_, ?_, ?_⟩
  · intro failure s
    cases failure with
    | none =>
      exact ⟨rfl, rfl, rfl, rfl, rfl, rfl, rfl, rfl⟩
    | some e =>
      exact ⟨rfl, rfl, rfl, rfl, rfl, rfl, rfl, rfl⟩
  · intro e s
    rfl
  · intro report editorReport
    unfold jobOutcome
    cases hc : report_content report editorReport with
    | none => simp [truthyStr]
    | some str =>
      by_cases hs : str = ""
      · subst hs
        simp [truthyStr]
      · simp [truthyStr, hs]

/-!
### Job admission control (application.py, `run_job_with_semaphore`)
-/

/-- `MAX_CONCURRENT_JOBS = 5` (application.py line 88). -/
def MAX_CONCURRENT_JOBS : ℕ := 5

/-- The process-wide admission state: free slots of
`asyncio.Semaphore(MAX_CONCURRENT_JOBS)` plus the jobs currently
executing the pipeline. -/
structure AdmissionState where
  available : ℕ
  running : List ℕ
  deriving DecidableEq

/-- Steps of `run_job_with_semaphore` (application.py lines 107-126):
`acquire` blocks until a slot is free (line 111), and `finish` releases
the slot in the `finally` block (line 125) — the release happens whether
`process_research` returned normally or raised (`raised` records which;
the state change is identical). -/
inductive AdmissionStep : AdmissionState → AdmissionState → Prop
  | acquire (j : ℕ) (s : AdmissionState) (hav : 0 < s.available)
      (hnew : j ∉ s.running) :
      AdmissionStep s ⟨s.available - 1, j :: s.running⟩
  | finish (j : ℕ) (raised : Bool) (s : AdmissionState) (hmem : j ∈ s.running) :
      AdmissionStep s ⟨s.available + 1, s.running.erase j⟩

/-- Initially all 5 slots are free and nothing runs. -/
def initAdmission : AdmissionState := ⟨MAX_CONCURRENT_JOBS, []⟩

inductive AdmissionReachable : AdmissionState → Prop
  | init : AdmissionReachable initAdmission
  | step (s s2 : AdmissionState) :
      AdmissionReachable s → AdmissionStep s s2 → AdmissionReachable s2

/-- C9: in every reachable admission state, slots are conserved (released
unconditionally, so capacity is never leaked) and at most 5 jobs execute
the pipeline concurrently. -/
theorem admission_bound_and_no_leak (s : AdmissionState)
    (h : AdmissionReachable s) :
    s.running.length + s.available = MAX_CONCURRENT_JOBS
    ∧ s.running.length ≤ MAX_CONCURRENT_JOBS := by
  induction h with
  | init => exact ⟨rfl, by decide⟩
  | step s1 s2 hr hstep ih =>
    obtain ⟨ihsum, ihle⟩ := ih
    rcases hstep with ⟨j, hav, hnew⟩ | ⟨j, raised, s9, hmem⟩
    · refine ⟨?_, ?_⟩ <;> (simp only [List.length_cons]; omega)
    · have hlen := List.length_erase_of_mem hmem
      have hpos : 0 < s1.running.length := List.length_pos.mpr
        (List.ne_nil_of_mem hmem)
      refine ⟨?_, ?_⟩ <;> (simp only [hlen]; omega)

/-- Witness for C9: after one acquisition the invariant holds concretely
(one job running, four slots free). -/
theorem admission_bound_witness :
    (AdmissionState.mk 4 [0]).running.length + (AdmissionState.mk 4 [0]).available
        = MAX_CONCURRENT_JOBS
    ∧ (AdmissionState.mk 4 [0]).running.length ≤ MAX_CONCURRENT_JOBS :=
  admission_bound_and_no_leak _
    (AdmissionReachable.step _ _ AdmissionReachable.init
      (AdmissionStep.acquire 0 initAdmission (by decide) (by simp [initAdmission])))

end CompanyResearch
